import Mathlib

/-
Verification development for the pyreact reactive dataflow library.

The Python modules under pyreact/ are shallowly embedded below:
  * tracking.py   -> Track, trackBegin, trackEnd, registerDependency
  * signal.py     -> CompState, recalcLevel, computedPing, varUpdate, nowOf
  * eventstream.py-> obsPing
  * core.py       -> GState (graph state), link/unlink operations,
                     reactorDispose, CoreGraph, corePropagate

Values carried through the graph and Python exception objects are both
modelled as integers; none of the verified properties depends on the
value type.  Python exceptions that escape a function are modelled with
Except; a function that cannot raise is total.
-/

/-- Result carried along edges, pyutil result style: tagged union of a
success value and a failure holding the raised error. -/
inductive Res where
  | success (v : Int)
  | failure (e : Int)
deriving DecidableEq, Repr

/-- Python-level error outcomes that matter for the claims: TypeError
for arity and unpacking violations, AttributeError for a missing
attribute, or a re-raised user error. -/
inductive PyErr where
  | typeError
  | attributeError
  | raised (e : Int)
deriving DecidableEq, Repr

/- ------------------------------------------------------------------
tracking.py: a module-global current callback plus a stack of saved
callbacks.  Callbacks are identified by opaque numeric ids; a Python
function object is always truthy, so the `if __current:` test in
register_dependency is equivalent to a None test. -/

/-- State of tracking.py: the module globals __current (None or a
callback) and __stack (list of callbacks, head of the list is the most
recently pushed entry; Python appends and pops at the right end). -/
structure Track where
  cur : Option Nat
  stk : List Nat
deriving DecidableEq, Repr

/-- tracking.begin: if a current callback exists it is pushed onto the
stack, then the new callback becomes current.  When no frame is active
nothing is pushed. -/
def trackBegin (cb : Nat) (t : Track) : Track :=
  match t.cur with
  | none => { cur := some cb, stk := t.stk }
  | some c => { cur := some cb, stk := c :: t.stk }

/-- tracking.end: the current callback is cleared and, if the stack is
non-empty, the most recently pushed callback is popped and restored. -/
def trackEnd (t : Track) : Track :=
  match t.stk with
  | [] => { cur := none, stk := [] }
  | c :: rest => { cur := some c, stk := rest }

/-- tracking.register_dependency: returns the callback that gets invoked
with the dependency, namely the current (innermost) one, or none when no
frame is active. -/
def registerDependency (t : Track) : Option Nat :=
  t.cur

/-- Reachable tracking states: begin only pushes when a current frame
exists, so a state with no current frame always has an empty stack. -/
def Track.wf (t : Track) : Prop := t.cur = none → t.stk = []

/-- A begin or end call on the tracking module. -/
inductive TOp where
  | beginF (cb : Nat)
  | endF
deriving DecidableEq, Repr

/-- Applies one tracking call to the tracking state. -/
def applyTOp (t : Track) : TOp → Track
  | .beginF cb => trackBegin cb t
  | .endF => trackEnd t

/-- Runs a sequence of begin and end calls on the tracking state. -/
def execTOps (ops : List TOp) (t : Track) : Track :=
  ops.foldl applyTOp t

/-- Properly paired begin and end call sequences: every begin is closed
by a matching end, as guaranteed by the try and finally blocks in
Computed and Observer which run end even when the computation raised. -/
inductive Paired : List TOp → Prop
  | nil : Paired []
  | wrap (cb : Nat) {s : List TOp} : Paired s →
      Paired (TOp.beginF cb :: s ++ [TOp.endF])
  | app {s t : List TOp} : Paired s → Paired t → Paired (s ++ t)

/- ------------------------------------------------------------------
signal.py Computed. -/

/-- Python max over a non-empty list, folded left to right starting from
the first element. -/
def pyMax (m : Nat) : List Nat → Nat
  | [] => m
  | x :: xs => pyMax (max m x) xs

/-- Computed.__recalculate level rule, signal.py line 185: zero when no
dependency was read, otherwise one plus the maximum recorded dependency
level. -/
def recalcLevel : List Nat → Nat
  | [] => 0
  | d :: ds => pyMax d ds + 1

/-- The try and except around self.__calc() in Computed.__recalculate:
a returned value becomes Success, a raised error becomes Failure. -/
def resOfTry (calcE : Except Int Int) : Res :=
  match calcE with
  | .ok v => .success v
  | .error e => .failure e

/-- State stored by a Computed: the (level, result) pair. -/
structure CompState where
  level : Nat
  res : Res
deriving DecidableEq, Repr

/-- Computed.__recalculate viewed with its dependency reads abstracted:
deps lists the levels of the dependencies read during the run of calc
(in read order) and calcE is the outcome of calc.  The Except codomain
records whether an exception escapes the evaluation: it never does,
because the except clause stores the error as a Failure instead. -/
def recalcExc (deps : List Nat) (calcE : Except Int Int) : Except Int CompState :=
  Except.ok ⟨recalcLevel deps, resOfTry calcE⟩

/-- The state produced by one recalculation. -/
def recalcState (deps : List Nat) (calcE : Except Int Int) : CompState :=
  ⟨recalcLevel deps, resOfTry calcE⟩

/-- Signal.now for a Computed, signal.py lines 157-161: returns the
stored result via pyutil result.  Modelled from the spec: pyutil is an
external dependency; per the spec, peek surfaces the success value or
re-raises the stored error. -/
def nowOf (st : CompState) : Except Int Int :=
  match st.res with
  | .success v => .ok v
  | .failure e => .error e

/-- Signal.apply, signal.py lines 37-43: registers a dependency in the
current tracking frame (tracking is modelled separately) and then
behaves exactly like now. -/
def applyOf (st : CompState) : Except Int Int :=
  nowOf st

/-- Computed.ping, signal.py lines 163-170: recalculate; when the new
(level, result) pair equals the stored one return the empty set,
otherwise store it and return a (child, result) ping for every current
child. -/
def computedPing (old : CompState) (deps : List Nat) (calcE : Except Int Int)
    (children : Finset Nat) : CompState × Finset (Nat × Res) :=
  let new := recalcState deps calcE
  if new = old then (old, ∅)
  else (new, children.image fun c => (c, new.res))

/- ------------------------------------------------------------------
signal.py Var.update and core.py Propagator.propagate arity. -/

/-- Number of arguments Var.update passes to propagate besides the bound
propagator: the source and the Success payload (signal.py line 125). -/
def varUpdatePropagateArgs : Nat := 2

/-- Number of parameters Propagator.propagate accepts besides self: just
the source (core.py line 168). -/
def propagateParams : Nat := 1

/-- Var.update, signal.py lines 121-125: a no-op when the new value
equals the stored one; otherwise the new value is stored first and then
propagate is called with (self, Success(new)).  Core Propagator.propagate
accepts only the source, so that call raises TypeError; the branch in
which the arities would agree never runs. -/
def varUpdate (cur newV : Int) : Int × Except PyErr Unit :=
  if newV ≠ cur then
    (newV,
      if varUpdatePropagateArgs = propagateParams then Except.ok ()
      else Except.error PyErr.typeError)
  else (cur, Except.ok ())

/- ------------------------------------------------------------------
eventstream.py Observer.ping. -/

/-- A Python value appearing as an element of the incoming set of a
ping: either a bare emitter (what core.py Propagator.propagate actually
passes, line 184) or an (emitter, result) pair (what eventstream.py
Observer.ping is written to consume, line 97). -/
inductive InVal where
  | emitter (e : Nat)
  | pair (e : Nat) (r : Res)
deriving DecidableEq, Repr

/-- Which callback a stream Observer invokes for a ping. -/
inductive Dispatch where
  | value (v : Int)
  | failed (e : Int)
  | ignored
deriving DecidableEq, Repr

/-- The generator next((r for (e, r) in incoming if e in self.parents))
in eventstream.py line 97: walk the incoming elements, unpacking each as
a pair; a bare Emitter element cannot be unpacked and raises TypeError;
an exhausted generator raises StopIteration, which the caller catches. -/
def findFromParents (parents : Finset Nat) : List InVal → Except PyErr (Option Res)
  | [] => Except.ok none
  | .emitter _ :: _ => Except.error PyErr.typeError
  | .pair e r :: rest =>
      if e ∈ parents then Except.ok (some r) else findFromParents parents rest

/-- eventstream.py Observer.ping, lines 93-105: look up the first result
contributed by a member of self.parents; if none, return the empty set
(ignored); dispatch a Success to on_value and a Failure to on_error. -/
def obsPing (parents : Finset Nat) (incoming : List InVal) : Except PyErr Dispatch :=
  match findFromParents parents incoming with
  | .error er => .error er
  | .ok none => .ok .ignored
  | .ok (some (.success v)) => .ok (.value v)
  | .ok (some (.failure e)) => .ok (.failed e)

/-- The incoming set built by core.py Propagator.propagate line 184:
the bare emitters of the grouped pings, with the reactor removed. -/
def coreIncoming (ps : List (Nat × Nat)) : List InVal :=
  ps.map fun p => InVal.emitter p.1

/- ------------------------------------------------------------------
core.py Emitter and Reactor edge storage.

Neither class defines an initialiser, so the sets named in the class
bodies are class attributes: every Emitter instance starts out reading
the same __hard_refs and __weak_refs objects, and every Reactor instance
reads the same __parents object.  Mutations split in two ways:

  * self.__hard_refs.add(...) and self.__parents.add(...) mutate the
    shared class-level set in place, so they are visible from every
    instance; the model keeps a single hard set and a single parents
    set for the whole state.
  * __compact_weak_refs assigns self.__weak_refs = {...}, which creates
    an instance attribute shadowing the class one, and every weak-set
    mutation happens after a compaction, so weak references end up in
    per-instance storage; the model maps each emitter to an optional
    instance set, falling back to the (never mutated) class set.

All reactors are alive in the model: weak references never die, so
compaction only materialises the instance attribute.  Emitters and
reactors are identified by numerals. -/

/-- The mutable state behind core.py Emitter and Reactor. -/
structure GState where
  hard : Finset Nat
  weakCls : Finset Nat
  weakInst : Nat → Option (Finset Nat)
  parents : Finset Nat

/-- Pointwise update of the instance-attribute table. -/
def setWeakInst (f : Nat → Option (Finset Nat)) (e : Nat) (v : Finset Nat) :
    Nat → Option (Finset Nat) :=
  fun x => if x = e then some v else f x

/-- The weak-reference set an emitter currently reads: its instance
attribute if one was assigned, else the class attribute. -/
def weakOf (s : GState) (e : Nat) : Finset Nat :=
  (s.weakInst e).getD s.weakCls

/-- Emitter.__compact_weak_refs, core.py lines 56-61: filters dead
references and assigns the result to self.__weak_refs, materialising the
instance attribute (no reference is dead in the model). -/
def compactWeak (s : GState) (e : Nat) : GState :=
  { s with weakInst := setWeakInst s.weakInst e (weakOf s e) }

/-- Emitter.children, core.py lines 63-70: the union of the hard
references and the compacted weak references, as a frozen snapshot. -/
def childrenOf (s : GState) (e : Nat) : Finset Nat :=
  s.hard ∪ weakOf s e

/-- Reactor.parents, core.py lines 117-122: a frozen snapshot of
__parents.  The reactor argument is unused because __parents is a class
attribute and every instance reads the same set. -/
def parentsOf (s : GState) (_r : Nat) : Finset Nat :=
  s.parents

mutual
/-- Emitter.link_child, core.py lines 72-87: return if the reactor is
already hard- or weak-referenced (compacting the weak set on the way),
otherwise record it in the hard or weak set per keep_alive and call
reactor.link_parent(self).  The fuel bounds the mutual recursion, which
the membership guards stop after one nested hop. -/
def linkChildF : Nat → GState → Nat → Nat → Bool → GState
  | 0, s, _, _, _ => s
  | fuel + 1, s, e, r, keepAlive =>
    if r ∈ s.hard then s
    else
      let s1 := compactWeak s e
      if r ∈ weakOf s1 e then s1
      else
        let s2 :=
          if keepAlive then { s1 with hard := insert r s1.hard }
          else { s1 with weakInst := setWeakInst s1.weakInst e (insert r (weakOf s1 e)) }
        linkParentF fuel s2 r e

/-- Reactor.link_parent, core.py lines 124-131: if the emitter is not
yet a parent, add it to __parents and call emitter.link_child(self) with
the default keep_alive of False. -/
def linkParentF : Nat → GState → Nat → Nat → GState
  | 0, s, _, _ => s
  | fuel + 1, s, r, e =>
    if e ∈ s.parents then s
    else linkChildF fuel { s with parents := insert e s.parents } e r false
end

mutual
/-- Emitter.unlink_child, core.py lines 89-106: drop a hard reference
and call unlink_parent, else compact the weak set, drop a weak
reference if present and call unlink_parent. -/
def unlinkChildF : Nat → GState → Nat → Nat → GState
  | 0, s, _, _ => s
  | fuel + 1, s, e, r =>
    if r ∈ s.hard then unlinkParentF fuel { s with hard := s.hard.erase r } r e
    else
      let s1 := compactWeak s e
      if r ∈ weakOf s1 e then
        unlinkParentF fuel
          { s1 with weakInst := setWeakInst s1.weakInst e ((weakOf s1 e).erase r) } r e
      else s1

/-- Reactor.unlink_parent, core.py lines 133-140: if the emitter is a
parent, discard it and call emitter.unlink_child(self). -/
def unlinkParentF : Nat → GState → Nat → Nat → GState
  | 0, s, _, _ => s
  | fuel + 1, s, r, e =>
    if e ∈ s.parents then unlinkChildF fuel { s with parents := s.parents.erase e } e r
    else s
end

/-- Emitter.link_child with enough fuel for the bounded mutual
recursion (the nested call chain stops after at most three hops). -/
def link_child (s : GState) (e r : Nat) (keepAlive : Bool) : GState :=
  linkChildF 8 s e r keepAlive

/-- Reactor.link_parent with enough fuel. -/
def link_parent (s : GState) (r e : Nat) : GState :=
  linkParentF 8 s r e

/-- Emitter.unlink_child with enough fuel. -/
def unlink_child (s : GState) (e r : Nat) : GState :=
  unlinkChildF 8 s e r

/-- Reactor.unlink_parent with enough fuel. -/
def unlink_parent (s : GState) (r e : Nat) : GState :=
  unlinkParentF 8 s r e

/-- The state before any linking: all class-attribute sets empty, no
instance attribute assigned. -/
def initState : GState :=
  ⟨∅, ∅, fun _ => none, ∅⟩

/-- Python call semantics for applying a frozenset value: a frozenset is
not callable, so the call raises TypeError whatever the set holds. -/
def frozensetCall (_v : Finset Nat) : Except PyErr (List Nat) :=
  Except.error PyErr.typeError

/-- Reactor.dispose, core.py lines 153-158: iterates self.parents().
parents is a property, so self.parents is already the frozenset and the
trailing call applies the frozenset itself; the TypeError is raised
before any edge is removed. -/
def reactorDispose (s : GState) (r : Nat) : Except PyErr GState := do
  let _ ← frozensetCall (parentsOf s r)
  pure s

/- ------------------------------------------------------------------
core.py Propagator.propagate, lines 168-188.

Pings are (emitter, reactor) pairs.  The Python pending collection is a
set; the model keeps it as a duplicate-free list whose order is the
insertion order, one realizable iteration order of the set (a Python
set promises no particular order, which is what makes the grouping step
fragile: itertools.groupby only merges elements that happen to be
adjacent).  The reactors are abstracted to their schedule-relevant
behaviour: a fixed level, a fixed list of children used for seeding, a
fixed list of reactors returned by ping, and an emitter flag. -/

/-- One pending ping: the emitter that caused it and the target
reactor. -/
abbrev Ping := Nat × Nat

/-- One recorded reactor invocation: the reactor and the emitters of the
pings it was handed. -/
abbrev Invoc := Nat × List Nat

/-- The graph data Propagator.propagate consults: node levels (the
float infinity of observers is represented by any value above the other
levels, since only the order matters), the children snapshot of each
emitter, the set of reactors a ping returns, and whether a node is an
Emitter instance. -/
structure CoreGraph where
  level : Nat → Nat
  children : Nat → List Nat
  todo : Nat → List Nat
  isEmitter : Nat → Bool

/-- Set insertion: adding an element a set already holds leaves it
unchanged, otherwise it appears at the end of the iteration order. -/
def insertPing (l : List Ping) (p : Ping) : List Ping :=
  if p ∈ l then l else l ++ [p]

/-- The set union pings |= new of core.py line 188. -/
def unionPings (l : List Ping) (xs : List Ping) : List Ping :=
  xs.foldl insertPing l

/-- One step of consecutive grouping: prepend a ping to the group list,
merging it into the first group when the keys agree. -/
def groupPush (p : Ping) : List (Nat × List Ping) → List (Nat × List Ping)
  | [] => [(p.2, [p])]
  | (k, run) :: gs =>
    if p.2 = k then (k, p :: run) :: gs
    else (p.2, [p]) :: (k, run) :: gs

/-- itertools.groupby keyed on the target reactor: consecutive runs of
pings with the same target become one group; equal targets separated by
a different target yield separate groups. -/
def groupRuns : List Ping → List (Nat × List Ping)
  | [] => []
  | p :: rest => groupPush p (groupRuns rest)

/-- min(r.level for (_, r) in pings), core.py line 177 (zero on the
empty list, on which the loop never evaluates it). -/
def minTargetLevel (g : CoreGraph) : List Ping → Nat
  | [] => 0
  | p :: rest => (rest.map fun q => g.level q.2).foldl min (g.level p.2)

/-- The pings due now: those whose target sits at the minimum level
(core.py line 178). -/
def roundNow (g : CoreGraph) (pings : List Ping) : List Ping :=
  pings.filter fun p => g.level p.2 == minTargetLevel g pings

/-- The pings deferred to later rounds: pings -= now (core.py line
179). -/
def roundLater (g : CoreGraph) (pings : List Ping) : List Ping :=
  pings.filter fun p => !(g.level p.2 == minTargetLevel g pings)

/-- The invocations of one round, core.py lines 181-184: one call of
r.ping per groupby group, handed the emitters of that group. -/
def roundInvs (now : List Ping) : List Invoc :=
  (groupRuns now).map fun grp => (grp.1, grp.2.map fun p => p.1)

/-- The pending set after one round, core.py lines 185-188: for every
group whose reactor is an Emitter, union in a ping from that reactor to
each reactor its ping returned. -/
def roundNext (g : CoreGraph) (later now : List Ping) : List Ping :=
  (groupRuns now).foldl
    (fun pnd grp =>
      if g.isEmitter grp.1 then
        unionPings pnd ((g.todo grp.1).map fun r2 => (grp.1, r2))
      else pnd)
    later

/-- The while loop of Propagator.propagate, core.py lines 174-188,
returning the list of reactor invocations in order.  The fuel bounds
the number of rounds; each recorded prefix of the run is exact. -/
def propagateLoop (g : CoreGraph) : Nat → List Ping → List Invoc
  | 0, _ => []
  | fuel + 1, pings =>
    if pings.isEmpty then []
    else
      roundInvs (roundNow g pings) ++
        propagateLoop g fuel (roundNext g (roundLater g pings) (roundNow g pings))

/-- Propagator.propagate, core.py lines 168-188: seed one ping per
child of the source, then run the level-ordered loop. -/
def corePropagate (g : CoreGraph) (fuel : Nat) (src : Nat) : List Invoc :=
  propagateLoop g fuel (unionPings [] ((g.children src).map fun r => (src, r)))

/- ------------------------------------------------------------------
A concrete double-diamond graph: source 0 at level 0 feeds emitters 1
and 2 at level 1; each of those pings reactors 3 and 4 at level 2.
Every edge strictly increases the level. -/

/-- Levels of the example graph. -/
def exLevel : Nat → Nat
  | 0 => 0
  | 1 => 1
  | 2 => 1
  | _ + 3 => 2

/-- Children snapshots of the example graph: only the source has
children recorded (the other edges enter through ping results). -/
def exChildren : Nat → List Nat
  | 0 => [1, 2]
  | _ + 1 => []

/-- Ping results of the example graph: nodes 1 and 2 each notify
reactors 3 and 4. -/
def exTodo : Nat → List Nat
  | 1 => [3, 4]
  | 2 => [3, 4]
  | _ => []

/-- Emitter flags of the example graph: 3 and 4 are pure sinks. -/
def exEmitter : Nat → Bool
  | 0 => true
  | 1 => true
  | 2 => true
  | _ => false

/-- The example graph assembled. -/
def exG : CoreGraph :=
  ⟨exLevel, exChildren, exTodo, exEmitter⟩

/- ------------------------------------------------------------------
core.py Propagator.propagate again, now keeping the actual value shape
of ping results.  CoreGraph abstracts the set a ping returns as a set
of reactors, which is what core.py expects; but Computed.ping actually
returns (child, result) pairs (signal.py line 170), and propagate
re-enqueues whatever it received as the target of a new ping (core.py
line 188).  On the next round, min evaluates .level on each pending
target (core.py line 177); a tuple has no such attribute and Python
raises AttributeError, aborting the wave.  This variant tracks targets
as Python values so that this failure is representable. -/

/-- A pending ping target as a Python value: a reactor object, or one
of the (child, result) tuples a Computed's ping returns. -/
inductive PTarget where
  | reactor (r : Nat)
  | pairRes (c : Nat) (v : Res)
deriving DecidableEq, Repr

/-- A pending ping of the value-shaped model: the emitter that caused
it and the target value. -/
abbrev PingE := Nat × PTarget

/-- The attribute access r.level of core.py line 177: a reactor has a
level, a tuple does not and raises AttributeError. -/
def levelOfTarget (lev : Nat → Nat) : PTarget → Except PyErr Nat
  | .reactor r => .ok (lev r)
  | .pairRes _ _ => .error PyErr.attributeError

/-- min((r.level for (_, r) in pings)) of core.py line 177: every
pending target's level attribute is read; the first tuple reached
raises.  Defined as 0 on the empty list, on which the loop never
evaluates it. -/
def minTargetLevelE (lev : Nat → Nat) : List PingE → Except PyErr Nat
  | [] => .ok 0
  | p :: rest => do
    let l0 ← levelOfTarget lev p.2
    rest.foldlM (fun m q => do
      let l ← levelOfTarget lev q.2
      pure (min m l)) l0

/-- The level attribute as used by the now/later filters of core.py
lines 178-179.  These filters run only after the min computation
succeeded, and then every pending target is a reactor; the tuple branch
is unreachable on executed paths and carries a dummy 0 for totality. -/
def targetLevelTotal (lev : Nat → Nat) : PTarget → Nat
  | .reactor r => lev r
  | .pairRes _ _ => 0

/-- Set insertion for value-shaped pings. -/
def insertPingE (l : List PingE) (p : PingE) : List PingE :=
  if p ∈ l then l else l ++ [p]

/-- The set union pings |= new of core.py line 188, value-shaped. -/
def unionPingsE (l : List PingE) (xs : List PingE) : List PingE :=
  xs.foldl insertPingE l

/-- One step of consecutive grouping of value-shaped pings. -/
def groupPushE (p : PingE) :
    List (PTarget × List PingE) → List (PTarget × List PingE)
  | [] => [(p.2, [p])]
  | (k, run) :: gs =>
    if p.2 = k then (k, p :: run) :: gs
    else (p.2, [p]) :: (k, run) :: gs

/-- itertools.groupby keyed on the target, value-shaped. -/
def groupRunsE : List PingE → List (PTarget × List PingE)
  | [] => []
  | p :: rest => groupPushE p (groupRunsE rest)

/-- Graph data for the value-shaped model: as CoreGraph, except that
the set a reactor's ping returns keeps its Python value shape (for a
changed Computed, (child, result) tuples). -/
structure CoreGraphE where
  level : Nat → Nat
  children : Nat → List Nat
  todoE : Nat → List PTarget
  isEmitter : Nat → Bool

/-- The while loop of Propagator.propagate, core.py lines 174-188, on
value-shaped pings: returns the invocations recorded before the wave
finished or aborted, and the Python error that aborted it, if any.
Group keys are reactors whenever the min computation succeeded; the
tuple-key branches are unreachable on executed paths. -/
def propagateLoopE (g : CoreGraphE) : Nat → List PingE → List Invoc × Option PyErr
  | 0, _ => ([], none)
  | fuel + 1, pings =>
    if pings.isEmpty then ([], none)
    else
      match minTargetLevelE g.level pings with
      | .error er => ([], some er)
      | .ok m =>
        let now := pings.filter fun p => targetLevelTotal g.level p.2 == m
        let later := pings.filter fun p => !(targetLevelTotal g.level p.2 == m)
        let invs := (groupRunsE now).filterMap fun grp =>
          match grp.1 with
          | .reactor r => some (r, grp.2.map fun p => p.1)
          | .pairRes _ _ => none
        let next := (groupRunsE now).foldl
          (fun pnd grp =>
            match grp.1 with
            | .reactor r =>
              if g.isEmitter r then
                unionPingsE pnd ((g.todoE r).map fun t => (r, t))
              else pnd
            | .pairRes _ _ => pnd)
          later
        let rest := propagateLoopE g fuel next
        (invs ++ rest.1, rest.2)

/-- Propagator.propagate on value-shaped pings: seed one ping per child
of the source (children are reactor objects) and run the loop. -/
def propagateE (g : CoreGraphE) (fuel : Nat) (src : Nat) :
    List Invoc × Option PyErr :=
  propagateLoopE g fuel
    (unionPingsE [] ((g.children src).map fun r => (src, PTarget.reactor r)))

/- ------------------------------------------------------------------
A concrete wave with a failing Computed and a sibling branch: Var 0 at
level 0 has two children, the Computed 1 at level 1 (whose function
raises, whose state changes, and which has child 2) and the sibling
reactor 3 at level 2.  Computed 1's ping returns the (child, Failure)
pair of signal.py line 170. -/

/-- Levels of the failing-wave example. -/
def errLevel : Nat → Nat
  | 0 => 0
  | 1 => 1
  | _ + 2 => 2

/-- Children snapshots of the failing-wave example. -/
def errChildren : Nat → List Nat
  | 0 => [1, 3]
  | _ + 1 => []

/-- Ping results of the failing-wave example: the changed failing
Computed 1 notifies its child 2 with the stored Failure. -/
def errTodo : Nat → List PTarget
  | 1 => [PTarget.pairRes 2 (Res.failure 9)]
  | _ => []

/-- Every node of the failing-wave example is an Emitter instance. -/
def errEmitter : Nat → Bool
  | _ => true

/-- The failing-wave example graph assembled. -/
def exErrG : CoreGraphE :=
  ⟨errLevel, errChildren, errTodo, errEmitter⟩

/- ==================================================================
Theorems. -/

/-- C1: in the double-diamond wave from source 0, the level-2 round
holds the pending pings in the order (1,3), (1,4), (2,3), (2,4); since
itertools.groupby merges only adjacent pings, reactor 3 receives two
separate ping invocations, handed first emitter 1 and then emitter 2,
instead of one grouped invocation, contradicting at-most-once delivery
(and the exactly-once promise of the Propagator docstring). -/
theorem propagate_pings_reactor_twice :
    corePropagate exG 10 0 =
      [(1, [0]), (2, [0]), (3, [1]), (4, [1]), (3, [2]), (4, [2])] ∧
    ((corePropagate exG 10 0).filter fun inv => inv.1 == 3).length = 2 := by
  constructor <;> rfl

/-- C3: one weak link_child call from emitter 0 to reactor 1 leaves the
shared class-level __parents set holding emitter 0, so an unrelated
reactor 2 reports emitter 0 among its parents even though reactor 2 is
not among the children of emitter 0: the claimed equivalence between
reactor membership in children and emitter membership in parents fails
for the pair (emitter 0, reactor 2). -/
theorem link_child_breaks_edge_symmetry :
    0 ∈ parentsOf (link_child initState 0 1 false) 2 ∧
    2 ∉ childrenOf (link_child initState 0 1 false) 0 := by
  constructor <;> decide

/-- C4: Var.update with an equal value leaves the stored value unchanged
and performs no propagate call, but with a different value it stores the
value and then raises TypeError, because the call passes the Success
payload to core Propagator.propagate, whose signature has no payload
parameter; the wave never completes. -/
theorem var_update_equal_noop_and_unequal_type_error :
    varUpdate 1 1 = (1, Except.ok ()) ∧
    varUpdate 1 2 = (2, Except.error PyErr.typeError) := by
  constructor <;> rfl

/-- C6: when the calc of a Computed raises, the recalculation lets no
exception escape: it returns normally with the error stored as a
Failure at the level the dependency reads dictate, and both peek (now)
and read (apply) on that state re-raise the stored error to the
caller.  The sibling-processing part of the claim fails, however: in
the wave of exErrG, the changed failing Computed 1 returns the
(child, Failure) pair, core propagate re-enqueues it as a ping target,
and the next round's min raises AttributeError reading .level on the
tuple, so the wave aborts with only [(1, [0])] invoked and the
level-2 sibling reactor 3 never runs. -/
theorem computed_error_captured_but_wave_aborts (deps : List Nat) (e : Int) :
    recalcExc deps (Except.error e) =
      Except.ok ⟨recalcLevel deps, Res.failure e⟩ ∧
    nowOf ⟨recalcLevel deps, Res.failure e⟩ = Except.error e ∧
    applyOf ⟨recalcLevel deps, Res.failure e⟩ = Except.error e ∧
    propagateE exErrG 10 0 = ([(1, [0])], some PyErr.attributeError) := by
  exact ⟨rfl, rfl, rfl, rfl⟩

/-- C8: Reactor.dispose always raises TypeError at the self.parents()
call, because parents is a property whose frozenset value is being
applied as a function; the error escapes before any parent edge is
removed, so dispose never completes and never detaches anything. -/
theorem reactor_dispose_raises_type_error (s : GState) (r : Nat) :
    reactorDispose s r = Except.error PyErr.typeError := rfl

/-- C9: with the incoming set that core Propagator.propagate actually
delivers (bare emitters), the stream Observer ping raises TypeError at
the pair unpacking; the dispatch behaviour the claim describes (Success
to on_value, Failure to on_error, ignored when no entry comes from a
parent) holds only for the (emitter, result) pair shape the function
was written against, which core never supplies. -/
theorem stream_observer_ping_shape_mismatch :
    obsPing {0} (coreIncoming [(0, 9)]) = Except.error PyErr.typeError ∧
    obsPing {0} [InVal.pair 0 (Res.success 3)] = Except.ok (Dispatch.value 3) ∧
    obsPing {0} [InVal.pair 0 (Res.failure 4)] = Except.ok (Dispatch.failed 4) ∧
    obsPing {0} [InVal.pair 1 (Res.success 3)] = Except.ok Dispatch.ignored := by
  refine ⟨rfl, ?_, ?_, ?_⟩ <;> rfl

/-- C10 counterexample: after a weak link_child from emitter 0 to
reactor 1, emitter 0 sees the reactor among its children but another
emitter 5 does not, because the compaction step materialised a
per-instance weak set on emitter 0; hence two Emitter instances do not
always have equal children sets. -/
theorem emitter_children_not_fully_shared :
    childrenOf (link_child initState 0 1 false) 0 ≠
      childrenOf (link_child initState 0 1 false) 5 := by
  decide

/- ------------------------------------------------------------------
Facts about pyMax, for the Computed level rule. -/

/-- Python max never drops below its running value. -/
theorem le_pyMax_init (l : List Nat) : ∀ m : Nat, m ≤ pyMax m l := by
  induction l with
  | nil => intro m; exact Nat.le_refl m
  | cons x xs ih =>
    intro m
    exact le_trans (le_max_left m x) (ih (max m x))

/-- Python max bounds every list element. -/
theorem le_pyMax_mem (l : List Nat) : ∀ (m x : Nat), x ∈ l → x ≤ pyMax m l := by
  induction l with
  | nil => intro m x hx; cases hx
  | cons y ys ih =>
    intro m x hx
    rcases List.mem_cons.mp hx with rfl | hmem
    · exact le_trans (le_max_right m x) (le_pyMax_init ys (max m x))
    · exact ih (max m y) x hmem

/-- Python max is the running value or one of the elements. -/
theorem pyMax_choice (l : List Nat) : ∀ m : Nat, pyMax m l = m ∨ pyMax m l ∈ l := by
  induction l with
  | nil => intro m; exact Or.inl rfl
  | cons x xs ih =>
    intro m
    rcases ih (max m x) with h | h
    · rcases max_choice m x with hm | hx
      · exact Or.inl (by rw [pyMax, h, hm])
      · exact Or.inr (by rw [pyMax, h, hx]; exact List.mem_cons_self x xs)
    · exact Or.inr (List.mem_cons_of_mem x (by rw [pyMax]; exact h))

/-- C5: the Computed recalculation and notification behaviour.  The new
level is 0 when no dependency was read and one plus the maximum of the
recorded dependency levels otherwise (pyMax being a genuine maximum:
an upper bound attained by the running value or a member); when the new
(level, result) pair equals the stored one, ping leaves the state alone
and returns the empty ping set, so no child is invoked; otherwise the
new pair is stored and the returned set carries one ping per current
child with the new result. -/
theorem computed_ping_level_cutoff_children (old : CompState) (deps : List Nat)
    (calcE : Except Int Int) (children : Finset Nat) :
    recalcLevel [] = 0 ∧
    (∀ d ds, recalcLevel (d :: ds) = pyMax d ds + 1) ∧
    (∀ d ds x, x ∈ d :: ds → x ≤ pyMax d ds) ∧
    (∀ d ds, pyMax d ds ∈ d :: ds) ∧
    (recalcState deps calcE = old →
      computedPing old deps calcE children = (old, ∅)) ∧
    (recalcState deps calcE ≠ old →
      computedPing old deps calcE children =
        (recalcState deps calcE,
          children.image fun c => (c, (recalcState deps calcE).res))) := by
  refine ⟨rfl, fun d ds => rfl, ?_, ?_, ?_, ?_⟩
  · intro d ds x hx
    rcases List.mem_cons.mp hx with rfl | hmem
    · exact le_pyMax_init ds x
    · exact le_pyMax_mem ds d x hmem
  · intro d ds
    rcases pyMax_choice ds d with h | h
    · rw [h]; exact List.mem_cons_self d ds
    · exact List.mem_cons_of_mem d h
  · intro h
    simp only [computedPing, if_pos h]
  · intro h
    simp only [computedPing, if_neg h]

/-- C5 witness: a concrete read of levels 2 and 5 bounds 5 by the
maximum; a recomputation equal to the stored state yields no pings; a
changed result is stored and pinged to the one child. -/
theorem computed_ping_level_cutoff_children_witness :
    5 ≤ pyMax 2 [5] ∧
    computedPing ⟨0, Res.success 7⟩ [] (Except.ok 7) {1} =
      (⟨0, Res.success 7⟩, ∅) ∧
    computedPing ⟨0, Res.success 7⟩ [] (Except.ok 8) {1} =
      (⟨0, Res.success 8⟩, {(1, Res.success 8)}) := by
  refine ⟨(computed_ping_level_cutoff_children ⟨0, Res.success 7⟩ [] (Except.ok 7)
      {1}).2.2.1 2 [5] 5 (by decide), ?_, ?_⟩
  · exact (computed_ping_level_cutoff_children ⟨0, Res.success 7⟩ [] (Except.ok 7)
      {1}).2.2.2.2.1 (by decide)
  · rw [(computed_ping_level_cutoff_children ⟨0, Res.success 7⟩ [] (Except.ok 8)
      {1}).2.2.2.2.2 (by decide)]
    rfl

/- ------------------------------------------------------------------
Tracking theorems. -/

/-- A state just after begin always satisfies the reachability
invariant, since its current frame is set. -/
theorem trackBegin_wf (cb : Nat) (t : Track) : (trackBegin cb t).wf := by
  intro h
  rcases t with ⟨cur, stk⟩
  cases cur <;> simp [trackBegin] at h

/-- Running a concatenation runs the two parts in order. -/
theorem execTOps_append (a b : List TOp) (t : Track) :
    execTOps (a ++ b) t = execTOps b (execTOps a t) := by
  simp [execTOps, List.foldl_append]

/-- C7: register_dependency invokes exactly the innermost active frame
callback and is a no-op (none) when no frame is active; end after a
begin restores the previous frame on every reachable state; therefore
running any properly paired sequence of begin and end calls, including
the pairs the try and finally blocks guarantee around raising
computations, leaves the tracking state exactly as it was. -/
theorem tracking_innermost_and_balanced_restore :
    (∀ t : Track, registerDependency t = t.cur) ∧
    (∀ (cb : Nat) (t : Track), t.wf → trackEnd (trackBegin cb t) = t) ∧
    (∀ s : List TOp, Paired s → ∀ t : Track, t.wf → execTOps s t = t) := by
  have hbe : ∀ (cb : Nat) (t : Track), t.wf → trackEnd (trackBegin cb t) = t := by
    intro cb t hwf
    rcases t with ⟨cur, stk⟩
    cases cur with
    | none =>
      have hs : stk = [] := hwf rfl
      subst hs; rfl
    | some c => rfl
  refine ⟨fun t => rfl, hbe, ?_⟩
  intro s hp
  induction hp with
  | nil => intro t _; rfl
  | @wrap cb s1 hps ih =>
    intro t hwf
    have h1 : execTOps (TOp.beginF cb :: s1 ++ [TOp.endF]) t
        = execTOps [TOp.endF] (execTOps s1 (trackBegin cb t)) := by
      rw [show execTOps (TOp.beginF cb :: s1 ++ [TOp.endF]) t
          = execTOps (s1 ++ [TOp.endF]) (trackBegin cb t) from rfl]
      rw [execTOps_append]
    rw [h1, ih (trackBegin cb t) (trackBegin_wf cb t)]
    exact hbe cb t hwf
  | app hp1 hp2 ih1 ih2 =>
    intro t hwf
    rw [execTOps_append, ih1 t hwf, ih2 t hwf]

/-- C7 witness: the paired sequence begin then end run on the idle
tracking state restores the idle state. -/
theorem tracking_innermost_and_balanced_restore_witness :
    Paired [TOp.beginF 7, TOp.endF] ∧
    Track.wf ⟨none, []⟩ ∧
    execTOps [TOp.beginF 7, TOp.endF] ⟨none, []⟩ = ⟨none, []⟩ := by
  have hp : Paired [TOp.beginF 7, TOp.endF] := Paired.wrap 7 Paired.nil
  have hwf : Track.wf ⟨none, []⟩ := fun _ => rfl
  exact ⟨hp, hwf, tracking_innermost_and_balanced_restore.2.2 _ hp _ hwf⟩

/- ------------------------------------------------------------------
Unfoldings of the fuelled link operations at the fuel the wrappers use,
and small facts about the weak-set storage. -/

/-- link_child with keep_alive True unfolded one level. -/
theorem link_child_true_eq (s : GState) (e r : Nat) :
    link_child s e r true =
      if r ∈ s.hard then s
      else if r ∈ weakOf (compactWeak s e) e then compactWeak s e
      else linkParentF 7
        (GState.mk (insert r s.hard) s.weakCls
          (setWeakInst s.weakInst e (weakOf s e)) s.parents) r e := rfl

/-- link_child with keep_alive False unfolded one level. -/
theorem link_child_false_eq (s : GState) (e r : Nat) :
    link_child s e r false =
      if r ∈ s.hard then s
      else if r ∈ weakOf (compactWeak s e) e then compactWeak s e
      else linkParentF 7
        (GState.mk s.hard s.weakCls
          (setWeakInst (setWeakInst s.weakInst e (weakOf s e)) e
            (insert r (weakOf (compactWeak s e) e))) s.parents) r e := rfl

/-- The nested link_parent call unfolded one level. -/
theorem linkParentF_seven_eq (s : GState) (r e : Nat) :
    linkParentF 7 s r e =
      if e ∈ s.parents then s
      else linkChildF 6
        (GState.mk s.hard s.weakCls s.weakInst (insert e s.parents)) e r false := rfl

/-- The innermost nested link_child call unfolded one level. -/
theorem linkChildF_six_eq (s : GState) (e r : Nat) :
    linkChildF 6 s e r false =
      if r ∈ s.hard then s
      else if r ∈ weakOf (compactWeak s e) e then compactWeak s e
      else linkParentF 5
        (GState.mk s.hard s.weakCls
          (setWeakInst (setWeakInst s.weakInst e (weakOf s e)) e
            (insert r (weakOf (compactWeak s e) e))) s.parents) r e := rfl

/-- Reassigning the instance weak set of an emitter changes what that
emitter reads to the assigned set. -/
theorem weakOf_set_self (a b : Finset Nat) (f : Nat → Option (Finset Nat))
    (d : Finset Nat) (e : Nat) (v : Finset Nat) :
    weakOf (GState.mk a b (setWeakInst f e v) d) e = v := by
  simp [weakOf, setWeakInst]

/-- Reassigning the instance weak set of one emitter leaves what every
other emitter reads unchanged. -/
theorem weakOf_set_other (a b : Finset Nat) (f : Nat → Option (Finset Nat))
    (d : Finset Nat) (e e2 : Nat) (v : Finset Nat) (h : e2 ≠ e) :
    weakOf (GState.mk a b (setWeakInst f e v) d) e2
      = weakOf (GState.mk a b f d) e2 := by
  simp [weakOf, setWeakInst, h]

/-- Compaction does not change the weak set the compacted emitter
reads. -/
theorem weakOf_compact_self (s : GState) (e : Nat) :
    weakOf (compactWeak s e) e = weakOf s e :=
  weakOf_set_self s.hard s.weakCls s.weakInst s.parents e (weakOf s e)

/-- Compaction of one emitter does not change what another emitter
reads. -/
theorem weakOf_compact_other (s : GState) (e e2 : Nat) (h : e2 ≠ e) :
    weakOf (compactWeak s e) e2 = weakOf s e2 :=
  weakOf_set_other s.hard s.weakCls s.weakInst s.parents e e2 (weakOf s e) h

/-- C10 amended: the parents set and the hard-reference children set
are class-level shared state, but the weak-reference children set is
not.  Concretely: every two Reactor instances always report equal
parents sets; a link_child with keep_alive True (when the reactor is
not already weakly held by the linking emitter) makes the reactor a
child of every emitter, because the hard set is shared; a link_child
with keep_alive False records the reactor in the children of the
linking emitter only, leaving every other emitter's children unchanged,
because the weak set lives in a per-instance attribute materialised by
compaction. -/
theorem class_level_sharing_characterised :
    (∀ (s : GState) (r1 r2 : Nat), parentsOf s r1 = parentsOf s r2) ∧
    (∀ (s : GState) (e e2 r : Nat), r ∉ weakOf s e →
      r ∈ childrenOf (link_child s e r true) e2) ∧
    (∀ (s : GState) (e e2 r : Nat), e2 ≠ e →
      childrenOf (link_child s e r false) e2 = childrenOf s e2) ∧
    (∀ (s : GState) (e r : Nat), r ∈ childrenOf (link_child s e r false) e) := by
  refine ⟨fun s r1 r2 => rfl, ?_, ?_, ?_⟩
  · -- keep_alive True reaches the shared hard set
    intro s e e2 r hw
    rw [link_child_true_eq]
    by_cases h1 : r ∈ s.hard
    · rw [if_pos h1]
      exact Finset.mem_union_left _ h1
    · rw [if_neg h1, if_neg (by rw [weakOf_compact_self]; exact hw)]
      rw [linkParentF_seven_eq]
      dsimp only
      by_cases h2 : e ∈ s.parents
      · rw [if_pos h2]
        exact Finset.mem_union_left _ (Finset.mem_insert_self r _)
      · rw [if_neg h2, linkChildF_six_eq]
        dsimp only
        rw [if_pos (Finset.mem_insert_self r _)]
        exact Finset.mem_union_left _ (Finset.mem_insert_self r _)
  · -- keep_alive False touches only the linking emitter's weak set
    intro s e e2 r hne
    rw [link_child_false_eq]
    by_cases h1 : r ∈ s.hard
    · rw [if_pos h1]
    · rw [if_neg h1]
      by_cases h2 : r ∈ weakOf (compactWeak s e) e
      · rw [if_pos h2]
        simp [childrenOf, compactWeak, weakOf, setWeakInst, hne]
      · rw [if_neg h2, linkParentF_seven_eq]
        dsimp only
        by_cases h3 : e ∈ s.parents
        · rw [if_pos h3]
          simp [childrenOf, compactWeak, weakOf, setWeakInst, hne]
        · rw [if_neg h3, linkChildF_six_eq]
          dsimp only
          rw [if_neg h1]
          rw [if_pos (by
            rw [weakOf_compact_self, weakOf_set_self]
            exact Finset.mem_insert_self r _)]
          simp [childrenOf, compactWeak, weakOf, setWeakInst, hne]
  · -- keep_alive False does link the reactor to the linking emitter
    intro s e r
    rw [link_child_false_eq]
    by_cases h1 : r ∈ s.hard
    · rw [if_pos h1]
      exact Finset.mem_union_left _ h1
    · rw [if_neg h1]
      by_cases h2 : r ∈ weakOf (compactWeak s e) e
      · rw [if_pos h2]
        exact Finset.mem_union_right _ h2
      · rw [if_neg h2, linkParentF_seven_eq]
        dsimp only
        by_cases h3 : e ∈ s.parents
        · rw [if_pos h3]
          refine Finset.mem_union_right _ ?_
          rw [weakOf_set_self]
          exact Finset.mem_insert_self r _
        · rw [if_neg h3, linkChildF_six_eq]
          dsimp only
          rw [if_neg h1]
          rw [if_pos (by
            rw [weakOf_compact_self, weakOf_set_self]
            exact Finset.mem_insert_self r _)]
          refine Finset.mem_union_right _ ?_
          rw [weakOf_compact_self, weakOf_set_self]
          exact Finset.mem_insert_self r _

/-- C10 amended witness: from the empty state, reactor 1 is not weakly
held by emitter 0, a hard link from emitter 0 puts it among the
children of the unrelated emitter 5, and a weak link from emitter 0
leaves the children of emitter 5 unchanged. -/
theorem class_level_sharing_characterised_witness :
    (1 ∉ weakOf initState 0) ∧
    1 ∈ childrenOf (link_child initState 0 1 true) 5 ∧
    ((5 : Nat) ≠ 0) ∧
    childrenOf (link_child initState 0 1 false) 5 = childrenOf initState 5 := by
  refine ⟨by decide, ?_, by decide, ?_⟩
  · exact class_level_sharing_characterised.2.1 initState 0 5 1 (by decide)
  · exact class_level_sharing_characterised.2.2.1 initState 0 5 1 (by decide)

/- ------------------------------------------------------------------
Level ordering of the propagation loop, for graphs whose edges strictly
increase the level. -/

/-- A left fold of min never exceeds its starting value. -/
theorem foldlMin_le_init (l : List Nat) : ∀ a : Nat, l.foldl min a ≤ a := by
  induction l with
  | nil => intro a; exact Nat.le_refl a
  | cons x xs ih =>
    intro a
    exact le_trans (ih (min a x)) (min_le_left a x)

/-- A left fold of min bounds every list element. -/
theorem foldlMin_le_mem (l : List Nat) :
    ∀ (a x : Nat), x ∈ l → l.foldl min a ≤ x := by
  induction l with
  | nil => intro a x hx; cases hx
  | cons y ys ih =>
    intro a x hx
    rcases List.mem_cons.mp hx with rfl | hmem
    · exact le_trans (foldlMin_le_init ys (min a x)) (min_le_right a x)
    · exact ih (min a y) x hmem

/-- A left fold of min is the starting value or a list element. -/
theorem foldlMin_choice (l : List Nat) :
    ∀ a : Nat, l.foldl min a = a ∨ l.foldl min a ∈ l := by
  induction l with
  | nil => intro a; exact Or.inl rfl
  | cons x xs ih =>
    intro a
    rcases ih (min a x) with h | h
    · rcases min_choice a x with hm | hx
      · exact Or.inl (by rw [List.foldl_cons, h, hm])
      · exact Or.inr (by
          rw [List.foldl_cons, h, hx]; exact List.mem_cons_self x xs)
    · exact Or.inr (List.mem_cons_of_mem x (by rw [List.foldl_cons]; exact h))

/-- The minimum target level bounds the level of every pending ping. -/
theorem minTargetLevel_le (g : CoreGraph) (pings : List Ping) (p : Ping)
    (hp : p ∈ pings) : minTargetLevel g pings ≤ g.level p.2 := by
  cases pings with
  | nil => cases hp
  | cons q rest =>
    rcases List.mem_cons.mp hp with rfl | hmem
    · exact foldlMin_le_init _ _
    · exact foldlMin_le_mem _ _ _ (List.mem_map_of_mem _ hmem)

/-- When every pending ping targets strictly above m, so does the
minimum target level. -/
theorem lt_minTargetLevel (g : CoreGraph) (pings : List Ping) (m : Nat)
    (hne : pings ≠ []) (h : ∀ p ∈ pings, m < g.level p.2) :
    m < minTargetLevel g pings := by
  cases pings with
  | nil => exact absurd rfl hne
  | cons q rest =>
    show m < (rest.map fun q2 => g.level q2.2).foldl min (g.level q.2)
    rcases foldlMin_choice (rest.map fun q2 => g.level q2.2) (g.level q.2)
      with hc | hc
    · rw [hc]
      exact h q (List.mem_cons_self q rest)
    · obtain ⟨p, hpmem, hpe⟩ := List.mem_map.mp hc
      rw [← hpe]
      exact h p (List.mem_cons_of_mem q hpmem)

/-- Every group produced by the consecutive grouping is non-empty, and
each of its pings comes from the grouped list and targets the group
key. -/
theorem groupRuns_mem (l : List Ping) :
    ∀ (k : Nat) (run : List Ping), (k, run) ∈ groupRuns l →
      run ≠ [] ∧ ∀ p ∈ run, p ∈ l ∧ p.2 = k := by
  induction l with
  | nil =>
    intro k run h
    exact absurd h (List.not_mem_nil _)
  | cons p rest ih =>
    intro k run h
    have h2 : (k, run) ∈ groupPush p (groupRuns rest) := h
    cases hgr : groupRuns rest with
    | nil =>
      rw [hgr] at h2
      simp only [groupPush, List.mem_singleton, Prod.mk.injEq] at h2
      obtain ⟨hk, hrun⟩ := h2
      subst hk; subst hrun
      refine ⟨by simp, ?_⟩
      intro q hq
      rw [List.mem_singleton] at hq
      subst hq
      exact ⟨List.mem_cons_self _ _, rfl⟩
    | cons g0 gs =>
      obtain ⟨k0, run0⟩ := g0
      rw [hgr] at h2
      by_cases hpk : p.2 = k0
      · simp only [groupPush] at h2
        rw [if_pos hpk] at h2
        rcases List.mem_cons.mp h2 with heq | htl
        · injection heq with hk hr
          subst hk; subst hr
          have ihg := ih k run0 (by rw [hgr]; exact List.mem_cons_self _ _)
          refine ⟨by simp, ?_⟩
          intro q hq
          rcases List.mem_cons.mp hq with rfl | hq2
          · exact ⟨List.mem_cons_self _ _, hpk⟩
          · obtain ⟨hq3, hq4⟩ := ihg.2 q hq2
            exact ⟨List.mem_cons_of_mem p hq3, hq4⟩
        · have hmemr : (k, run) ∈ groupRuns rest := by
            rw [hgr]; exact List.mem_cons_of_mem _ htl
          obtain ⟨hne2, hmem2⟩ := ih k run hmemr
          exact ⟨hne2, fun q hq =>
            ⟨List.mem_cons_of_mem p (hmem2 q hq).1, (hmem2 q hq).2⟩⟩
      · simp only [groupPush] at h2
        rw [if_neg hpk] at h2
        rcases List.mem_cons.mp h2 with heq | htl
        · injection heq with hk hr
          subst hk; subst hr
          refine ⟨by simp, ?_⟩
          intro q hq
          rw [List.mem_singleton] at hq
          subst hq
          exact ⟨List.mem_cons_self _ _, rfl⟩
        · have hmemr : (k, run) ∈ groupRuns rest := by rw [hgr]; exact htl
          obtain ⟨hne2, hmem2⟩ := ih k run hmemr
          exact ⟨hne2, fun q hq =>
            ⟨List.mem_cons_of_mem p (hmem2 q hq).1, (hmem2 q hq).2⟩⟩

/-- Membership in the due-now pings. -/
theorem mem_roundNow (g : CoreGraph) (pings : List Ping) (p : Ping) :
    p ∈ roundNow g pings ↔
      p ∈ pings ∧ g.level p.2 = minTargetLevel g pings := by
  simp [roundNow, List.mem_filter]

/-- Membership in the deferred pings. -/
theorem mem_roundLater (g : CoreGraph) (pings : List Ping) (p : Ping) :
    p ∈ roundLater g pings ↔
      p ∈ pings ∧ ¬ g.level p.2 = minTargetLevel g pings := by
  simp [roundLater, List.mem_filter]

/-- Set insertion adds no element beyond the inserted one. -/
theorem mem_insertPing (l : List Ping) (p q : Ping) (h : q ∈ insertPing l p) :
    q ∈ l ∨ q = p := by
  by_cases hp : p ∈ l
  · rw [insertPing, if_pos hp] at h
    exact Or.inl h
  · rw [insertPing, if_neg hp] at h
    rcases List.mem_append.mp h with h1 | h2
    · exact Or.inl h1
    · rw [List.mem_singleton] at h2
      exact Or.inr h2

/-- Set union adds no element beyond the two operands. -/
theorem mem_unionPings (xs : List Ping) :
    ∀ (l : List Ping) (q : Ping), q ∈ unionPings l xs → q ∈ l ∨ q ∈ xs := by
  induction xs with
  | nil => intro l q h; exact Or.inl h
  | cons x xs ih =>
    intro l q h
    rcases ih (insertPing l x) q h with h1 | h2
    · rcases mem_insertPing l x q h1 with h3 | h4
      · exact Or.inl h3
      · exact Or.inr (by rw [h4]; exact List.mem_cons_self x xs)
    · exact Or.inr (List.mem_cons_of_mem x h2)

/-- Every ping the post-round fold adds comes from the deferred set or
from the ping result of one of the groups. -/
theorem mem_roundNextFold (g : CoreGraph) (groups : List (Nat × List Ping)) :
    ∀ (pnd : List Ping) (q : Ping),
      q ∈ groups.foldl
        (fun pnd grp =>
          if g.isEmitter grp.1 then
            unionPings pnd ((g.todo grp.1).map fun r2 => (grp.1, r2))
          else pnd) pnd →
      q ∈ pnd ∨ ∃ grp ∈ groups, q.2 ∈ g.todo grp.1 := by
  induction groups with
  | nil => intro pnd q h; exact Or.inl h
  | cons grp groups ih =>
    intro pnd q h
    rcases ih (if g.isEmitter grp.1 then
        unionPings pnd ((g.todo grp.1).map fun r2 => (grp.1, r2))
      else pnd) q h with h1 | h2
    · by_cases hem : g.isEmitter grp.1
      · rw [if_pos hem] at h1
        rcases mem_unionPings _ _ _ h1 with h3 | h4
        · exact Or.inl h3
        · obtain ⟨r2, hr2, heq⟩ := List.mem_map.mp h4
          refine Or.inr ⟨grp, List.mem_cons_self grp groups, ?_⟩
          rw [← heq]
          exact hr2
      · rw [if_neg hem] at h1
        exact Or.inl h1
    · obtain ⟨grp2, hg, hq⟩ := h2
      exact Or.inr ⟨grp2, List.mem_cons_of_mem grp hg, hq⟩

/-- Every invocation of a round targets the minimum pending level. -/
theorem roundInvs_level_eq (g : CoreGraph) (pings : List Ping) (inv : Invoc)
    (h : inv ∈ roundInvs (roundNow g pings)) :
    g.level inv.1 = minTargetLevel g pings := by
  obtain ⟨grp, hgrp, heq⟩ := List.mem_map.mp h
  obtain ⟨k, run⟩ := grp
  obtain ⟨hne, hmem⟩ := groupRuns_mem _ k run hgrp
  obtain ⟨p, hp⟩ := List.exists_mem_of_ne_nil run hne
  obtain ⟨hpnow, hpk⟩ := hmem p hp
  have hlev : g.level p.2 = minTargetLevel g pings :=
    ((mem_roundNow g pings p).mp hpnow).2
  rw [← heq]
  dsimp only
  rw [← hpk]
  exact hlev

/-- With level-increasing edges, every ping pending after a round
targets strictly above the level the round drained. -/
theorem roundNext_level_gt (g : CoreGraph)
    (hEdge : ∀ r r2, r2 ∈ g.todo r → g.level r < g.level r2)
    (pings : List Ping) (q : Ping)
    (h : q ∈ roundNext g (roundLater g pings) (roundNow g pings)) :
    minTargetLevel g pings < g.level q.2 := by
  rcases mem_roundNextFold g (groupRuns (roundNow g pings))
      (roundLater g pings) q h with h1 | h2
  · obtain ⟨hq, hne⟩ := (mem_roundLater g pings q).mp h1
    exact lt_of_le_of_ne (minTargetLevel_le g pings q hq)
      (fun heq => hne heq.symm)
  · obtain ⟨grp, hgrp, hq2⟩ := h2
    obtain ⟨k, run⟩ := grp
    obtain ⟨hne, hmem⟩ := groupRuns_mem _ k run hgrp
    obtain ⟨p, hp⟩ := List.exists_mem_of_ne_nil run hne
    obtain ⟨hpnow, hpk⟩ := hmem p hp
    have hlev : g.level p.2 = minTargetLevel g pings :=
      ((mem_roundNow g pings p).mp hpnow).2
    have hlt := hEdge k q.2 hq2
    rw [← hpk, hlev] at hlt
    exact hlt

/-- The loop on an empty pending set records nothing. -/
theorem propagateLoop_nil (g : CoreGraph) (fuel : Nat) :
    propagateLoop g fuel [] = [] := by
  cases fuel <;> rfl

/-- A list of invocations at one common level is chained by the level
order. -/
theorem chain_le_of_const (g : CoreGraph) (m : Nat) (l : List Invoc)
    (h : ∀ x ∈ l, g.level x.1 = m) :
    List.Chain' (fun a b => g.level a.1 ≤ g.level b.1) l := by
  induction l with
  | nil => exact List.chain'_nil
  | cons x xs ih =>
    cases xs with
    | nil => exact List.chain'_singleton x
    | cons y ys =>
      rw [List.chain'_cons]
      constructor
      · rw [h x (List.mem_cons_self x _),
          h y (List.mem_cons_of_mem x (List.mem_cons_self y ys))]
      · exact ih fun z hz => h z (List.mem_cons_of_mem x hz)

/-- The propagate loop yields invocations in non-decreasing level
order, all at or above the minimum pending level. -/
theorem loopLevels (g : CoreGraph)
    (hEdge : ∀ r r2, r2 ∈ g.todo r → g.level r < g.level r2) :
    ∀ (fuel : Nat) (pings : List Ping),
      List.Chain' (fun a b => g.level a.1 ≤ g.level b.1)
        (propagateLoop g fuel pings) ∧
      ∀ inv ∈ propagateLoop g fuel pings,
        minTargetLevel g pings ≤ g.level inv.1 := by
  intro fuel
  induction fuel with
  | zero =>
    intro pings
    exact ⟨List.chain'_nil, fun inv h => absurd h (List.not_mem_nil inv)⟩
  | succ fuel ih =>
    intro pings
    by_cases hemp : pings.isEmpty = true
    · constructor
      · simp only [propagateLoop, if_pos hemp]
        exact List.chain'_nil
      · simp only [propagateLoop, if_pos hemp]
        exact fun inv h => absurd h (List.not_mem_nil inv)
    · obtain ⟨ihC, ihB⟩ := ih (roundNext g (roundLater g pings) (roundNow g pings))
      have hInvL : ∀ inv ∈ roundInvs (roundNow g pings),
          g.level inv.1 = minTargetLevel g pings :=
        fun inv h => roundInvs_level_eq g pings inv h
      have hRestGt : ∀ inv ∈ propagateLoop g fuel
          (roundNext g (roundLater g pings) (roundNow g pings)),
          minTargetLevel g pings < g.level inv.1 := by
        intro inv hi
        have hnn : roundNext g (roundLater g pings) (roundNow g pings) ≠ [] := by
          intro hn
          rw [hn, propagateLoop_nil] at hi
          exact absurd hi (List.not_mem_nil inv)
        have h1 := ihB inv hi
        have h2 := lt_minTargetLevel g
          (roundNext g (roundLater g pings) (roundNow g pings))
          (minTargetLevel g pings) hnn
          (fun q hq => roundNext_level_gt g hEdge pings q hq)
        omega
      have hunf : propagateLoop g (fuel + 1) pings
          = roundInvs (roundNow g pings) ++
            propagateLoop g fuel
              (roundNext g (roundLater g pings) (roundNow g pings)) := by
        simp only [propagateLoop, if_neg hemp]
      constructor
      · rw [hunf, List.chain'_append]
        refine ⟨chain_le_of_const g (minTargetLevel g pings) _ hInvL, ihC, ?_⟩
        intro x hx y hy
        have hx2 : x ∈ roundInvs (roundNow g pings) := by
          obtain ⟨hne2, hx3⟩ := List.mem_getLast?_eq_getLast hx
          rw [hx3]
          exact List.getLast_mem hne2
        have hy2 := List.mem_of_mem_head? hy
        have hgt := hRestGt y hy2
        rw [hInvL x hx2]
        omega
      · intro inv hi
        rw [hunf] at hi
        rcases List.mem_append.mp hi with h1 | h2
        · exact le_of_eq (hInvL inv h1).symm
        · exact le_of_lt (hRestGt inv h2)

/-- C2: when every edge strictly increases the level (each reactor a
ping notifies sits strictly above the notifying emitter), one
Propagator.propagate call invokes reactors in non-decreasing order of
target level: the loop always drains the globally lowest pending level
first, so no reactor runs while a strictly lower-level invocation is
still due. -/
theorem propagate_levels_monotone (g : CoreGraph) (fuel src : Nat)
    (hEdge : ∀ r r2, r2 ∈ g.todo r → g.level r < g.level r2) :
    List.Chain' (fun a b => g.level a.1 ≤ g.level b.1)
      (corePropagate g fuel src) :=
  (loopLevels g hEdge fuel
    (unionPings [] ((g.children src).map fun r => (src, r)))).1

/-- C2 witness: the double-diamond example graph has strictly
level-increasing edges, and its wave from source 0 is invoked in
non-decreasing level order. -/
theorem propagate_levels_monotone_witness :
    List.Chain' (fun a b => exG.level a.1 ≤ exG.level b.1)
      (corePropagate exG 10 0) := by
  refine propagate_levels_monotone exG 10 0 ?_
  intro r r2 hmem
  rcases r with _ | _ | _ | n
  · exact absurd hmem (List.not_mem_nil r2)
  · have h34 : r2 = 3 ∨ r2 = 4 := by simpa [exG, exTodo] using hmem
    rcases h34 with rfl | rfl <;> decide
  · have h34 : r2 = 3 ∨ r2 = 4 := by simpa [exG, exTodo] using hmem
    rcases h34 with rfl | rfl <;> decide
  · exact absurd hmem (List.not_mem_nil r2)
